import Mathlib

/-!
Verification of the DynHandle allocator (hermes, `src/lib/DynHandle` and
`src/include/hermes/DynHandle`) against its natural-language specification.

The development shallowly embeds the allocator:

* a `Cell` models one `PinnedHermesValue`: it either encodes a native pointer
  (used to thread the free list through slot storage), an encoded user value,
  or untouched memory;
* a `Chunk` models `DynHandleAllocator::Chunk`: the free-list head, the bump
  cursor `allocatedEnd`, and the trailing array of slots (a list of cells).
  Slot pointers into a chunk are modelled as indices into that array, since
  `Chunk::free` and `chunkForSlot` always resolve a slot pointer to the chunk
  that contains it (the address arithmetic itself is verified separately);
* an `Allocator` models `DynHandleAllocator`: the chunk list (head first),
  with each chunk carrying a stable identity so that splicing the list does
  not change which chunk a handle points into.

Machine pointers appear only in the chunk-alignment arithmetic, where they are
modelled as natural numbers below `2 ^ 64`.
-/

namespace DynHandleModel

/-- Model of `kChunkAlignment` (`1u << 10`): the byte alignment of a chunk. -/
def kChunkAlignment : Nat := 1024

/-- Model of `kChunkByteSize`: the byte size of a chunk, equal to the alignment. -/
def kChunkByteSize : Nat := kChunkAlignment

/-- Byte size of the `Chunk` header on the modelled LP64 platform:
`Chunk *next` (8) + `Slot *freeList` (8) + `uint32_t allocatedEnd` (4),
padded to the 8-byte alignment of the pointer members. -/
def chunkHeaderSize : Nat := 24

/-- Byte size of a `Slot` (one `PinnedHermesValue`, a 64-bit tagged cell). -/
def slotByteSize : Nat := 8

/-- Model of `kSlotsPerChunk = (kChunkByteSize - sizeof(Chunk)) / sizeof(Slot)`. -/
def kSlotsPerChunk : Nat := (kChunkByteSize - chunkHeaderSize) / slotByteSize

/-- A tagged cell (`PinnedHermesValue`): either an encoded native pointer to
the next free slot (the free-list link, `none` meaning null), an encoded user
value, or untouched memory. -/
inductive Cell : Type where
  | native : Option Nat → Cell
  | value : Nat → Cell
  | uninit : Cell
deriving DecidableEq

/-- Model of `HermesValue::getNativePointer<Slot>()`: decode a native pointer
from a cell. Decoding a cell that does not hold a native pointer is undefined
behaviour in the source; the model returns null there. -/
def Cell.getNativePointer : Cell → Option Nat
  | .native p => p
  | .value _ => none
  | .uninit => none

/-- Model of `DynHandleAllocator::Chunk`: free-list head (a slot index or
null), the bump cursor, and the slot storage. -/
structure Chunk : Type where
  freeList : Option Nat
  allocatedEnd : Nat
  slots : List Cell
deriving DecidableEq

/-- Model of `Chunk::tryAllocate`: pop the free list if non-empty, else bump
`allocatedEnd` if the chunk is not exhausted, else fail. Returns the allocated
slot index (if any) together with the updated chunk. -/
def Chunk.tryAllocate (c : Chunk) : Option Nat × Chunk :=
  match c.freeList with
  | some h =>
      (some h, { c with freeList := (c.slots.getD h Cell.uninit).getNativePointer })
  | none =>
      if c.allocatedEnd < kSlotsPerChunk then
        (some c.allocatedEnd, { c with allocatedEnd := c.allocatedEnd + 1 })
      else
        (none, c)

/-- Model of `Chunk::free`: store the current free-list head into the slot's
cell as a native pointer, then make the slot the new head. -/
def Chunk.free (c : Chunk) (i : Nat) : Chunk :=
  { c with slots := c.slots.set i (Cell.native c.freeList), freeList := some i }

/-- Walk a free list threaded through `slots`, starting from `o`, collecting
the slot indices visited, with `fuel` bounding the number of steps. Returns
`none` when the fuel runs out before the list terminates. -/
def chase (slots : List Cell) (fuel : Nat) (o : Option Nat) : Option (List Nat) :=
  match o with
  | none => some []
  | some i =>
      match fuel with
      | 0 => none
      | fuel' + 1 =>
          (chase slots fuel' ((slots.getD i Cell.uninit).getNativePointer)).map
            (fun l => i :: l)

/-- The free list of a chunk, walked with canonical fuel `kSlotsPerChunk + 1`
(enough for any well-formed chunk), or `[]` if the walk does not terminate. -/
def Chunk.freeChain (c : Chunk) : List Nat :=
  (chase c.slots (kSlotsPerChunk + 1) c.freeList).getD []

/-- The number of free-list entries of a chunk, as walked by the test helper
`DynHandleTests::countAllocations`. -/
def Chunk.freeLen (c : Chunk) : Nat := c.freeChain.length

/-- Whether `tryAllocate` on this chunk would fail: no free-list entry and the
bump cursor at capacity. -/
def Chunk.isFull (c : Chunk) : Prop :=
  c.freeList = none ∧ kSlotsPerChunk ≤ c.allocatedEnd

instance (c : Chunk) : Decidable c.isFull := by
  unfold Chunk.isFull
  infer_instance

/-- A chunk as freshly created by the slow path: `next` is represented by the
list structure, the free list is empty, `allocatedEnd` is zero, and the slot
storage is deliberately uninitialized. -/
def freshChunk : Chunk :=
  { freeList := none, allocatedEnd := 0,
    slots := List.replicate kSlotsPerChunk Cell.uninit }

/-- A fresh chunk right after its first (guaranteed-successful) `tryAllocate`:
the bump cursor has moved from 0 to 1. -/
def freshBumped : Chunk :=
  { freshChunk with allocatedEnd := 1 }

/-- Model of `DynHandleAllocator`: the chunk list, head first, each chunk
paired with a stable identity (its allocation address, abstractly). `nextId`
supplies fresh identities for newly created chunks. -/
structure Allocator : Type where
  chunks : List (Nat × Chunk)
  nextId : Nat
deriving DecidableEq

/-- The empty allocator (`chunks_ == nullptr`). -/
def Allocator.init : Allocator := { chunks := [], nextId := 0 }

/-- A slot pointer: the identity of the owning chunk and the slot index. -/
abbrev SlotPtr : Type := Nat × Nat

/-- Result of scanning the chunk list for a chunk with a free slot:
the (unchanged) chunks before the hit, the hit chunk's identity, its state
after the allocation, the allocated index, and the chunks after the hit. -/
structure ScanHit : Type where
  pre : List (Nat × Chunk)
  id : Nat
  chunk : Chunk
  idx : Nat
  suf : List (Nat × Chunk)

/-- The loop of `allocateSlotSlowPath`: find the first chunk whose
`tryAllocate` succeeds. Chunks that fail are left unchanged (a failing
`tryAllocate` does not mutate the chunk). -/
def scanChunks : List (Nat × Chunk) → Option ScanHit
  | [] => none
  | (id, c) :: rest =>
      match c.tryAllocate with
      | (some i, c') => some ⟨[], id, c', i, rest⟩
      | (none, _) =>
          (scanChunks rest).map fun r =>
            ⟨(id, c) :: r.pre, r.id, r.chunk, r.idx, r.suf⟩

/-- Model of `DynHandleAllocator::allocateSlotSlowPath` (with the platform
aligned allocation succeeding): scan the chunk list; on a hit splice the hit
chunk to the head; otherwise create a fresh chunk, link it at the head and
allocate from it. -/
def Allocator.allocateSlotSlowPath (a : Allocator) : SlotPtr × Allocator :=
  match scanChunks a.chunks with
  | some r =>
      ((r.id, r.idx), { a with chunks := (r.id, r.chunk) :: (r.pre ++ r.suf) })
  | none =>
      let p := freshChunk.tryAllocate
      ((a.nextId, p.1.getD 0),
        { chunks := (a.nextId, p.2) :: a.chunks, nextId := a.nextId + 1 })

/-- Model of `DynHandleAllocator::allocateSlot`: fast path through the head
chunk, falling back to the slow path. -/
def Allocator.allocateSlot (a : Allocator) : SlotPtr × Allocator :=
  match a.chunks with
  | (id, c) :: rest =>
      match c.tryAllocate with
      | (some i, c') => ((id, i), { a with chunks := (id, c') :: rest })
      | (none, _) => a.allocateSlotSlowPath
  | [] => a.allocateSlotSlowPath

/-- Overwrite the cell of the slot `p` (in the chunk with identity `p.1`). -/
def Allocator.setSlotCell (a : Allocator) (p : SlotPtr) (x : Cell) : Allocator :=
  { a with
    chunks := a.chunks.map fun q =>
      if q.1 = p.1 then (q.1, { q.2 with slots := q.2.slots.set p.2 x }) else q }

/-- Read the cell of the slot `p`. -/
def Allocator.getSlotCell (a : Allocator) (p : SlotPtr) : Cell :=
  match a.chunks.find? (fun q => q.1 == p.1) with
  | some q => q.2.slots.getD p.2 Cell.uninit
  | none => Cell.uninit

/-- Model of `DynHandleAllocator::allocate<T>(value)`: allocate a slot, store
the encoded value into it, and hand the slot out. Encoding a representable
value `v` is modelled by `Cell.value v`. -/
def Allocator.allocate (a : Allocator) (v : Nat) : SlotPtr × Allocator :=
  let p := a.allocateSlot
  (p.1, p.2.setSlotCell p.1 (Cell.value v))

/-- Model of freeing a slot (`DynHandle::freeThis` on a valid handle):
`chunkForSlot` resolves the slot pointer to its chunk, which then pushes the
slot onto its free list. -/
def Allocator.freeSlot (a : Allocator) (p : SlotPtr) : Allocator :=
  { a with
    chunks := a.chunks.map fun q =>
      if q.1 = p.1 then (q.1, q.2.free p.2) else q }

/-- Model of the test helper `DynHandleTests::countAllocations` and the
spec's `count_live_slots`: sum over chunks of `allocatedEnd` minus the length
of the free list. -/
def Allocator.countLiveSlots (a : Allocator) : Nat :=
  (a.chunks.map fun q => q.2.allocatedEnd - q.2.freeLen).sum

/-- An operation on the allocator, for the quiescent-point invariant:
allocate a handle carrying the value `v`, or drop the `k`-th outstanding
handle (no-op if there is no such handle). -/
inductive Op : Type where
  | alloc : Nat → Op
  | drop : Nat → Op

/-- A quiescent state: the allocator plus the outstanding valid handles
(most recently allocated first). -/
structure AllocState : Type where
  alloc : Allocator
  handles : List SlotPtr

/-- The fresh state: empty allocator, no handles. -/
def AllocState.init : AllocState := ⟨Allocator.init, []⟩

/-- Run one operation on a quiescent state. -/
def AllocState.step (s : AllocState) : Op → AllocState
  | .alloc v =>
      let p := s.alloc.allocate v
      ⟨p.2, p.1 :: s.handles⟩
  | .drop k =>
      if h : k < s.handles.length then
        ⟨s.alloc.freeSlot (s.handles.get ⟨k, h⟩), s.handles.eraseIdx k⟩
      else
        s

/-- Run a sequence of operations from the fresh state. -/
def AllocState.run (ops : List Op) : AllocState :=
  ops.foldl AllocState.step AllocState.init

/-! ### Chunk address arithmetic (`chunkForSlot`) -/

/-- The address computation of `DynHandleAllocator::chunkForSlot`:
`slotInt - (slotInt % kChunkByteSize)`. -/
def chunkForSlotAddr (s : Nat) : Nat := s - s % kChunkByteSize

/-- The specification's mask expression `s & ~(CHUNK_SIZE - 1)`, with the
complement taken at the 64-bit pointer width: `~(CHUNK_SIZE - 1)` is
`2 ^ 64 - CHUNK_SIZE` as an unsigned 64-bit value. -/
def specMaskAddr (s : Nat) : Nat := s &&& (2 ^ 64 - kChunkByteSize)

/-- The address of slot `i` of the chunk based at `base`: the slot array
trails the chunk header. -/
def slotAddr (base i : Nat) : Nat := base + chunkHeaderSize + slotByteSize * i

/-! ### Root marking -/

/-- The inner loop of `markRoots` on one chunk: offer the cells at indices
`0, 1, …, n - 1` (in increasing order) to the visitor `v`, which may rewrite
each cell in place (the acceptor receives the cell by reference). The visitor
threads a state of type `σ`. -/
def visitUpTo {σ : Type} (v : σ → Cell → σ × Cell) :
    Nat → σ → List Cell → σ × List Cell
  | 0, st, sl => (st, sl)
  | n + 1, st, sl =>
      let p := visitUpTo v n st sl
      let q := v p.1 (p.2.getD n Cell.uninit)
      (q.1, p.2.set n q.2)

/-- Model of the per-chunk part of `DynHandleAllocator::markRoots`: offer the
cells of slots `[0, allocatedEnd)` to the visitor. -/
def Chunk.markChunk {σ : Type} (v : σ → Cell → σ × Cell) (st : σ) (c : Chunk) :
    σ × Chunk :=
  let p := visitUpTo v c.allocatedEnd st c.slots
  (p.1, { c with slots := p.2 })

/-- Walk the chunk list in order, marking each chunk. -/
def markList {σ : Type} (v : σ → Cell → σ × Cell) :
    σ → List (Nat × Chunk) → σ × List (Nat × Chunk)
  | st, [] => (st, [])
  | st, (id, c) :: rest =>
      let p := c.markChunk v st
      let q := markList v p.1 rest
      (q.1, (id, p.2) :: q.2)

/-- Model of `DynHandleAllocator::markRoots`: for each chunk in list order,
for each slot index in `[0, allocatedEnd)` in increasing order, offer the
slot's cell to the visitor. -/
def Allocator.markRoots {σ : Type} (v : σ → Cell → σ × Cell) (st : σ)
    (a : Allocator) : σ × Allocator :=
  let p := markList v st a.chunks
  (p.1, { a with chunks := p.2 })

/-- A visitor that records every offered cell (in order) and leaves each cell
unchanged. -/
def recVisitor : List Cell → Cell → List Cell × Cell :=
  fun st c => (st ++ [c], c)

/-- The cells of the slots `[0, allocatedEnd)` of a chunk, in index order. -/
def Chunk.liveCells (c : Chunk) : List Cell :=
  (List.range c.allocatedEnd).map fun i => c.slots.getD i Cell.uninit

/-- The sequence of cells `markRoots` is specified to offer: chunks in list
order, slot indices in increasing order. -/
def Allocator.rootsTrace (a : Allocator) : List Cell :=
  (a.chunks.map fun q => q.2.liveCells).flatten

/-! ### Allocation with an explicit platform allocator -/

/-- Model of `allocateSlotSlowPath` with the platform aligned allocator made
explicit: when every chunk is full and the platform allocation fails
(`platformOk = false`), the source calls `hermes_fatal`, modelled as `none`.
No failure is ever returned to the caller in any other way. -/
def Allocator.slowPathChecked (a : Allocator) (platformOk : Bool) :
    Option (SlotPtr × Allocator) :=
  match scanChunks a.chunks with
  | some r =>
      some ((r.id, r.idx), { a with chunks := (r.id, r.chunk) :: (r.pre ++ r.suf) })
  | none =>
      if platformOk then
        let p := freshChunk.tryAllocate
        some ((a.nextId, p.1.getD 0),
          { chunks := (a.nextId, p.2) :: a.chunks, nextId := a.nextId + 1 })
      else
        none

/-- Model of `allocateSlot` with the platform aligned allocator made
explicit. -/
def Allocator.allocateSlotChecked (a : Allocator) (platformOk : Bool) :
    Option (SlotPtr × Allocator) :=
  match a.chunks with
  | (id, c) :: rest =>
      match c.tryAllocate with
      | (some i, c') => some ((id, i), { a with chunks := (id, c') :: rest })
      | (none, _) => a.slowPathChecked platformOk
  | [] => a.slowPathChecked platformOk

/-! ### DynHandle operations -/

/-- A `DynHandle`'s slot pointer: `none` models an invalid handle
(default-constructed or moved-from), `some p` a valid handle owning slot
`p`. -/
abbrev HandleVal : Type := Option SlotPtr

/-- Model of the `DynHandle` destructor: `freeThis` frees the slot back to
its chunk's free list when the handle is valid, and does nothing when it is
invalid. -/
def dynHandleDtor (a : Allocator) (h : HandleVal) : Allocator :=
  match h with
  | none => a
  | some p => a.freeSlot p

/-- Model of `operator=(DynHandle &&rhs)` executed with `rhs` aliased to
`*this` (self-move-assignment `h = std::move(h)`). The body runs
`freeThis()` — which, on a valid handle, frees the slot and nulls `slot_` —
and then `std::swap(slot_, rhs.slot_)`, which swaps the (single) variable
with itself and is the identity. The result is the new allocator state and
the handle's final slot pointer. -/
def dynHandleSelfMoveAssign (a : Allocator) (h : HandleVal) :
    Allocator × HandleVal :=
  let afterFree : Allocator × HandleVal :=
    match h with
    | none => (a, none)
    | some p => (a.freeSlot p, none)
  afterFree

/-- Model of `DynHandle<T>::get` (composed with `HermesValueTraits::decode`):
read the handle's cell; a value decodes to itself, anything else has no
decoding as a user value. -/
def dynGet (a : Allocator) (p : SlotPtr) : Option Nat :=
  match a.getSlotCell p with
  | Cell.value v => some v
  | _ => none

/-- Model of storing through the handle's mutable capability
(`MutableHandle` obtained from the `DynHandle`, the spec's `h.set(v)`). -/
def dynSet (a : Allocator) (p : SlotPtr) (v : Nat) : Allocator :=
  a.setSlotCell p (Cell.value v)

/-! ### Well-formedness -/

/-- Well-formedness of one chunk, with `fl` its free list: the slot storage
has the static size, the bump cursor is in range, the free-list walk
terminates (hence the list is acyclic) with the entries `fl`, the entries are
distinct, and every entry is an allocated index of this same chunk. -/
structure ChunkWF (c : Chunk) (fl : List Nat) : Prop where
  slotsLen : c.slots.length = kSlotsPerChunk
  endLe : c.allocatedEnd ≤ kSlotsPerChunk
  chain : chase c.slots (kSlotsPerChunk + 1) c.freeList = some fl
  nodup : fl.Nodup
  bdd : ∀ i ∈ fl, i < c.allocatedEnd

/-- Well-formedness of an allocator: chunk identities are distinct and below
`nextId`, and every chunk is well-formed. -/
structure AllocWF (a : Allocator) : Prop where
  ids : (a.chunks.map Prod.fst).Nodup
  idLt : ∀ p ∈ a.chunks, p.1 < a.nextId
  cwf : ∀ p ∈ a.chunks, ∃ fl, ChunkWF p.2 fl

/-- The slot `q` is live in `a`: its chunk is in the chunk list, its index is
allocated, and it is not on the free list. -/
def LiveIn (a : Allocator) (q : SlotPtr) : Prop :=
  ∃ c fl, (q.1, c) ∈ a.chunks ∧ ChunkWF c fl ∧ q.2 < c.allocatedEnd ∧ q.2 ∉ fl

/-- Well-formedness of a quiescent state: the allocator is well-formed, the
outstanding handles are distinct, and each owns a live slot. -/
structure StateWF (s : AllocState) : Prop where
  awf : AllocWF s.alloc
  hnd : s.handles.Nodup
  hval : ∀ q ∈ s.handles, LiveIn s.alloc q

/-! ### Concrete data for witnesses -/

/-- A chunk whose free list is `[2, 1]`, for exercising the free-list pop. -/
def chunkPopExample : Chunk :=
  { freeList := some 2, allocatedEnd := 3,
    slots := [Cell.value 5, Cell.native none, Cell.native (some 1)] }

/-- A chunk with an empty free list and spare capacity, for exercising the
bump path. -/
def chunkBumpExample : Chunk :=
  { freeList := none, allocatedEnd := 3,
    slots := [Cell.value 5, Cell.value 6, Cell.value 7] }

/-- A full chunk: empty free list, bump cursor at capacity. -/
def chunkFullExample : Chunk :=
  { freeList := none, allocatedEnd := kSlotsPerChunk,
    slots := List.replicate kSlotsPerChunk (Cell.value 9) }

/-! ## Lemmas about the free-list walk -/

theorem chase_none (sl : List Cell) (f : Nat) : chase sl f none = some [] := by
  unfold chase
  rfl

theorem chase_some (sl : List Cell) (f : Nat) (i : Nat) :
    chase sl (f + 1) (some i) =
      (chase sl f ((sl.getD i Cell.uninit).getNativePointer)).map (fun l => i :: l) := by
  conv_lhs => unfold chase

theorem chase_zero_some (sl : List Cell) (i : Nat) :
    chase sl 0 (some i) = none := by
  unfold chase
  rfl

theorem chase_length_le (sl : List Cell) :
    ∀ (f : Nat) (o : Option Nat) (l : List Nat),
      chase sl f o = some l → l.length ≤ f := by
  intro f
  induction f with
  | zero =>
      intro o l h
      cases o with
      | none => rw [chase_none] at h; cases h; simp
      | some i => rw [chase_zero_some] at h; cases h
  | succ f ih =>
      intro o l h
      cases o with
      | none => rw [chase_none] at h; cases h; simp
      | some i =>
          rw [chase_some] at h
          cases hrec : chase sl f ((sl.getD i Cell.uninit).getNativePointer) with
          | none => rw [hrec] at h; cases h
          | some l0 =>
              rw [hrec] at h
              cases h
              have := ih _ _ hrec
              simpa using Nat.succ_le_succ this

theorem chase_mono (sl : List Cell) :
    ∀ (f : Nat) (o : Option Nat) (l : List Nat),
      chase sl f o = some l → ∀ f', l.length ≤ f' → chase sl f' o = some l := by
  intro f
  induction f with
  | zero =>
      intro o l h f' hf'
      cases o with
      | none => rw [chase_none] at h; cases h; rw [chase_none]
      | some i => rw [chase_zero_some] at h; cases h
  | succ f ih =>
      intro o l h f' hf'
      cases o with
      | none => rw [chase_none] at h; cases h; rw [chase_none]
      | some i =>
          rw [chase_some] at h
          cases hrec : chase sl f ((sl.getD i Cell.uninit).getNativePointer) with
          | none => rw [hrec] at h; cases h
          | some l0 =>
              rw [hrec] at h
              cases h
              simp only [List.length_cons] at hf'
              obtain ⟨f'', rfl⟩ : ∃ f'', f' = f'' + 1 :=
                ⟨f' - 1, by omega⟩
              rw [chase_some, ih _ _ hrec f'' (by omega)]
              rfl

theorem getD_set_ne (sl : List Cell) (j : Nat) (x : Cell) (i : Nat) (h : i ≠ j) :
    (sl.set j x).getD i Cell.uninit = sl.getD i Cell.uninit := by
  induction sl generalizing i j with
  | nil => simp
  | cons a t ih =>
      cases j with
      | zero =>
          cases i with
          | zero => exact absurd rfl h
          | succ i => simp [List.getD]
      | succ j =>
          cases i with
          | zero => simp [List.getD]
          | succ i =>
              simp only [List.set, List.getD_cons_succ]
              exact ih j i (by omega)

theorem chase_set_not_mem (sl : List Cell) (j : Nat) (x : Cell) :
    ∀ (f : Nat) (o : Option Nat) (l : List Nat),
      chase sl f o = some l → j ∉ l → chase (sl.set j x) f o = some l := by
  intro f
  induction f with
  | zero =>
      intro o l h hj
      cases o with
      | none => rw [chase_none] at h ⊢; exact h
      | some i => rw [chase_zero_some] at h; cases h
  | succ f ih =>
      intro o l h hj
      cases o with
      | none => rw [chase_none] at h ⊢; exact h
      | some i =>
          rw [chase_some] at h
          cases hrec : chase sl f ((sl.getD i Cell.uninit).getNativePointer) with
          | none => rw [hrec] at h; cases h
          | some l0 =>
              rw [hrec] at h
              cases h
              have hij : i ≠ j := fun he => hj (he ▸ List.mem_cons_self i l0)
              have hj0 : j ∉ l0 := fun hm => hj (List.mem_cons_of_mem _ hm)
              rw [chase_some, getD_set_ne sl j x i hij, ih _ _ hrec hj0]
              rfl

/-! ## Claim C2 -/

/-- Claim C2: `Chunk::tryAllocate` behaves exactly as follows: if the free
list is non-empty it returns the free-list head and sets the free list to the
native pointer decoded from that slot's cell; otherwise, if
`allocatedEnd < kSlotsPerChunk` it returns the slot at index `allocatedEnd`
and increments `allocatedEnd` by one; otherwise it returns null. The record
updates in the conclusion make explicit that no other chunk field changes. -/
theorem c2_tryAllocate_exact (c : Chunk) :
    (∀ h, c.freeList = some h →
      c.tryAllocate =
        (some h,
          { c with freeList := (c.slots.getD h Cell.uninit).getNativePointer })) ∧
    (c.freeList = none → c.allocatedEnd < kSlotsPerChunk →
      c.tryAllocate =
        (some c.allocatedEnd, { c with allocatedEnd := c.allocatedEnd + 1 })) ∧
    (c.freeList = none → kSlotsPerChunk ≤ c.allocatedEnd →
      c.tryAllocate = (none, c)) := by
  refine ⟨?_, ?_, ?_⟩
  · intro h hh
    unfold Chunk.tryAllocate
    rw [hh]
  · intro hh hlt
    unfold Chunk.tryAllocate
    rw [hh]
    simp [hlt]
  · intro hh hge
    unfold Chunk.tryAllocate
    rw [hh]
    simp [Nat.not_lt_of_ge hge]

/-- Witness for claim C2: the three branches of `tryAllocate` evaluated on
concrete chunks through the theorem. -/
theorem c2_tryAllocate_exact_witness :
    chunkPopExample.tryAllocate =
      (some 2, { chunkPopExample with freeList := some 1 }) ∧
    chunkBumpExample.tryAllocate =
      (some 3, { chunkBumpExample with allocatedEnd := 4 }) ∧
    chunkFullExample.tryAllocate = (none, chunkFullExample) := by
  refine ⟨?_, ?_, ?_⟩
  · exact (c2_tryAllocate_exact chunkPopExample).1 2 rfl
  · exact (c2_tryAllocate_exact chunkBumpExample).2.1 rfl (by decide)
  · exact (c2_tryAllocate_exact chunkFullExample).2.2 rfl (by decide)

/-! ## Claim C3 -/

theorem specMask_eq_mul_div (s : Nat) (hs : s < 2 ^ 64) :
    specMaskAddr s = 2 ^ 10 * (s / 2 ^ 10) := by
  unfold specMaskAddr kChunkByteSize kChunkAlignment
  apply Nat.eq_of_testBit_eq
  intro i
  have hm : (2 : Nat) ^ 64 - 1024 = 2 ^ 10 * (2 ^ 54 - 1) := by norm_num
  have hdiv : ∀ j, (s / 2 ^ 10).testBit j = s.testBit (10 + j) := by
    intro j
    rw [← Nat.shiftRight_eq_div_pow, Nat.testBit_shiftRight]
  rw [Nat.testBit_land, hm, Nat.testBit_mul_pow_two, Nat.testBit_mul_pow_two,
    Nat.testBit_two_pow_sub_one, hdiv]
  by_cases h10 : 10 ≤ i
  · by_cases h64 : i < 64
    · have : 10 + (i - 10) = i := by omega
      simp [ge_iff_le, h10, this, show i - 10 < 54 by omega]
    · have hbit : s.testBit i = false := by
        apply Nat.testBit_lt_two_pow
        calc s < 2 ^ 64 := hs
          _ ≤ 2 ^ i := Nat.pow_le_pow_right (by norm_num) (by omega)
      have : 10 + (i - 10) = i := by
        omega
      simp [ge_iff_le, h10, this, hbit, show ¬(i - 10 < 54) by omega]
  · simp [ge_iff_le, h10]

/-- Claim C3: for every chunk base address `C` that is a multiple of
`CHUNK_SIZE` and every slot address `s = C + header + slotSize * i` in that
chunk's slot array (the static assertions bound the chunk footprint by
`CHUNK_SIZE`, so `0 ≤ s - C < CHUNK_SIZE`), the spec's mask expression
`s & ~(CHUNK_SIZE - 1)` (at 64-bit pointer width) equals `C`, and the code's
computation `s - s % CHUNK_SIZE` used by `chunkForSlot` equals that same mask
expression; `CHUNK_SIZE` is the power of two `2 ^ 10` and the static
assertions hold in the model. -/
theorem c3_chunkForSlot_mask (C i : Nat) (hC : C % kChunkByteSize = 0)
    (hi : i < kSlotsPerChunk) (hs : slotAddr C i < 2 ^ 64) :
    specMaskAddr (slotAddr C i) = C ∧
    chunkForSlotAddr (slotAddr C i) = specMaskAddr (slotAddr C i) ∧
    kChunkByteSize = 2 ^ 10 ∧
    kChunkByteSize ≤ kChunkAlignment ∧
    chunkHeaderSize + slotByteSize * kSlotsPerChunk ≤ kChunkByteSize := by
  have hk : kSlotsPerChunk = 125 := by decide
  have hoff : chunkHeaderSize + slotByteSize * i < kChunkByteSize := by
    unfold chunkHeaderSize slotByteSize kChunkByteSize kChunkAlignment
    omega
  have hmask : specMaskAddr (slotAddr C i) = 2 ^ 10 * (slotAddr C i / 2 ^ 10) :=
    specMask_eq_mul_div _ hs
  have hCle : C ≤ slotAddr C i := by
    unfold slotAddr
    omega
  have hlt : slotAddr C i < C + kChunkByteSize := by
    unfold slotAddr
    unfold chunkHeaderSize slotByteSize kChunkByteSize kChunkAlignment at hoff ⊢
    omega
  have h1024 : kChunkByteSize = 2 ^ 10 := by decide
  have hdm : 2 ^ 10 * (slotAddr C i / 2 ^ 10) = slotAddr C i - slotAddr C i % 2 ^ 10 := by
    have := Nat.div_add_mod (slotAddr C i) (2 ^ 10)
    omega
  have hCeq : slotAddr C i - slotAddr C i % 2 ^ 10 = C := by
    rw [h1024] at hC hlt
    have h2 : (2 : Nat) ^ 10 = 1024 := by norm_num
    rw [h2] at hC hlt ⊢
    omega
  refine ⟨by rw [hmask, hdm, hCeq], ?_, h1024, by decide, by decide⟩
  rw [hmask, hdm]
  unfold chunkForSlotAddr
  rw [h1024]

/-- Witness for claim C3: a chunk based at address `1024` and its slot `3`,
at address `1072`. -/
theorem c3_chunkForSlot_mask_witness :
    specMaskAddr (slotAddr 1024 3) = 1024 ∧
    chunkForSlotAddr (slotAddr 1024 3) = specMaskAddr (slotAddr 1024 3) ∧
    kChunkByteSize = 2 ^ 10 ∧
    kChunkByteSize ≤ kChunkAlignment ∧
    chunkHeaderSize + slotByteSize * kSlotsPerChunk ≤ kChunkByteSize :=
  c3_chunkForSlot_mask 1024 3 (by decide) (by decide) (by norm_num [slotAddr, chunkHeaderSize, slotByteSize])

/-! ## Claim C4 -/

set_option maxRecDepth 40000

theorem tryAllocate_fst_none_iff (c : Chunk) : c.tryAllocate.1 = none ↔ c.isFull := by
  unfold Chunk.tryAllocate Chunk.isFull
  cases hfl : c.freeList with
  | some h => simp
  | none =>
      by_cases hlt : c.allocatedEnd < kSlotsPerChunk
      all_goals simp [hlt]
      all_goals omega

theorem isFull_of_tryAllocate_none (c : Chunk) (c2 : Chunk)
    (h : c.tryAllocate = (none, c2)) : c.isFull := by
  have : c.tryAllocate.1 = none := by rw [h]
  exact (tryAllocate_fst_none_iff c).mp this

theorem scanChunks_none_iff (l : List (Nat × Chunk)) :
    scanChunks l = none ↔ ∀ p ∈ l, p.2.isFull := by
  induction l with
  | nil => simp [scanChunks]
  | cons hd t ih =>
      obtain ⟨id, c⟩ := hd
      rcases htc : c.tryAllocate with ⟨o, c2⟩
      cases o with
      | some i =>
          simp only [scanChunks, htc]
          constructor
          · intro h; cases h
          · intro h
            have := (tryAllocate_fst_none_iff c).mpr (h (id, c) (List.mem_cons_self _ _))
            rw [htc] at this
            cases this
      | none =>
          have hfull : c.isFull := isFull_of_tryAllocate_none c c2 htc
          simp only [scanChunks, htc]
          constructor
          · intro h p hp
            rcases List.mem_cons.mp hp with rfl | hp'
            · exact hfull
            · refine ih.mp ?_ p hp'
              cases hsc : scanChunks t with
              | none => rfl
              | some r0 => rw [hsc] at h; cases h
          · intro h
            have ht : scanChunks t = none :=
              ih.mpr fun p hp => h p (List.mem_cons_of_mem _ hp)
            rw [ht]
            rfl

theorem scanChunks_some_spec (l : List (Nat × Chunk)) (r : ScanHit)
    (h : scanChunks l = some r) :
    ∃ c, l = r.pre ++ (r.id, c) :: r.suf ∧ (∀ p ∈ r.pre, p.2.isFull) ∧
      c.tryAllocate = (some r.idx, r.chunk) := by
  induction l generalizing r with
  | nil => simp [scanChunks] at h
  | cons hd t ih =>
      obtain ⟨id, c⟩ := hd
      rcases htc : c.tryAllocate with ⟨o, c2⟩
      cases o with
      | some i =>
          simp only [scanChunks, htc, Option.some.injEq] at h
          subst h
          exact ⟨c, by simp, by simp, htc⟩
      | none =>
          have hfull : c.isFull := isFull_of_tryAllocate_none c c2 htc
          simp only [scanChunks, htc] at h
          cases hsc : scanChunks t with
          | none => rw [hsc] at h; cases h
          | some r0 =>
              rw [hsc] at h
              have h2 : (⟨(id, c) :: r0.pre, r0.id, r0.chunk, r0.idx, r0.suf⟩ : ScanHit) = r :=
                Option.some.inj h
              subst h2
              obtain ⟨c0, hdec, hpre, htc0⟩ := ih r0 hsc
              refine ⟨c0, ?_, ?_, htc0⟩
              · dsimp only
                simp only [List.cons_append]
                rw [← hdec]
              · dsimp only
                intro p hp
                rcases List.mem_cons.mp hp with rfl | hp'
                · exact hfull
                · exact hpre p hp'

theorem freshChunk_tryAllocate :
    freshChunk.tryAllocate = (some 0, freshBumped) := by
  decide

theorem slowPath_cases (a : Allocator) :
    (∃ pre id c c' i suf,
      a.chunks = pre ++ (id, c) :: suf ∧ (∀ p ∈ pre, p.2.isFull) ∧
      c.tryAllocate = (some i, c') ∧
      a.allocateSlotSlowPath = ((id, i), ⟨(id, c') :: (pre ++ suf), a.nextId⟩)) ∨
    ((∀ p ∈ a.chunks, p.2.isFull) ∧
      a.allocateSlotSlowPath = ((a.nextId, 0),
        ⟨(a.nextId, freshBumped) :: a.chunks,
          a.nextId + 1⟩)) := by
  cases hsc : scanChunks a.chunks with
  | none =>
      right
      refine ⟨(scanChunks_none_iff _).mp hsc, ?_⟩
      unfold Allocator.allocateSlotSlowPath
      rw [hsc]
      simp [freshChunk_tryAllocate]
  | some r =>
      left
      obtain ⟨c, hdec, hpre, htc⟩ := scanChunks_some_spec _ _ hsc
      refine ⟨r.pre, r.id, c, r.chunk, r.idx, r.suf, hdec, hpre, htc, ?_⟩
      unfold Allocator.allocateSlotSlowPath
      rw [hsc]

theorem allocateSlot_cases (a : Allocator) :
    (∃ pre id c c' i suf,
      a.chunks = pre ++ (id, c) :: suf ∧ (∀ p ∈ pre, p.2.isFull) ∧
      c.tryAllocate = (some i, c') ∧
      a.allocateSlot = ((id, i), ⟨(id, c') :: (pre ++ suf), a.nextId⟩)) ∨
    ((∀ p ∈ a.chunks, p.2.isFull) ∧
      a.allocateSlot = ((a.nextId, 0),
        ⟨(a.nextId, freshBumped) :: a.chunks,
          a.nextId + 1⟩)) := by
  rcases hchs : a.chunks with _ | ⟨⟨id, c⟩, rest⟩
  · have hred : a.allocateSlot = a.allocateSlotSlowPath := by
      unfold Allocator.allocateSlot
      rw [hchs]
    rcases slowPath_cases a with ⟨pre, id, c, c', i, suf, h1, h2, h3, h4⟩ | ⟨h1, h2⟩
    · rw [hchs] at h1
      cases pre <;> simp at h1
    · right
      rw [hchs] at h1 h2
      exact ⟨h1, hred.trans h2⟩
  · rcases htc : c.tryAllocate with ⟨o, c2⟩
    cases o with
    | some i =>
        left
        have hred : a.allocateSlot = ((id, i), ⟨(id, c2) :: rest, a.nextId⟩) := by
          unfold Allocator.allocateSlot
          rw [hchs]
          have : (match c.tryAllocate with
              | (some i, c') => ((id, i), { a with chunks := (id, c') :: rest })
              | (none, _) => a.allocateSlotSlowPath) =
              ((id, i), { a with chunks := (id, c2) :: rest }) := by
            rw [htc]
          exact this
        exact ⟨[], id, c, c2, i, rest, by simp, by simp, htc, by simpa using hred⟩
    | none =>
        have hred : a.allocateSlot = a.allocateSlotSlowPath := by
          unfold Allocator.allocateSlot
          rw [hchs]
          have : (match c.tryAllocate with
              | (some i, c') => ((id, i), { a with chunks := (id, c') :: rest })
              | (none, _) => a.allocateSlotSlowPath) = a.allocateSlotSlowPath := by
            rw [htc]
          exact this
        rcases slowPath_cases a with ⟨pre, id', c', c'', i, suf, h1, h2, h3, h4⟩ | ⟨h1, h2⟩
        · left
          rw [hchs] at h1
          exact ⟨pre, id', c', c'', i, suf, h1, h2, h3, hred.trans h4⟩
        · right
          rw [hchs] at h1 h2
          exact ⟨h1, hred.trans h2⟩

/-- Claim C4: `allocateSlot` tries the head chunk first and on failure scans
the chunk list from the head: the first chunk that yields a slot is spliced
to the head, the remaining chunks keeping their order; if every chunk is full
(or there are none), a fresh chunk (next = old head, empty free list,
`allocatedEnd` bumped from 0 to 1 by the allocation) is inserted at the head
and slot 0 of it is returned. Concretely, `kSlotsPerChunk + 1` allocations
from a fresh allocator yield exactly two chunks with the newest chunk (id 1)
at the head. -/
theorem c4_allocateSlot_structure :
    (∀ a : Allocator,
      (∃ pre id c c' i suf,
        a.chunks = pre ++ (id, c) :: suf ∧ (∀ p ∈ pre, p.2.isFull) ∧
        c.tryAllocate = (some i, c') ∧
        a.allocateSlot = ((id, i), ⟨(id, c') :: (pre ++ suf), a.nextId⟩)) ∨
      ((∀ p ∈ a.chunks, p.2.isFull) ∧
        a.allocateSlot = ((a.nextId, 0),
          ⟨(a.nextId, { freshChunk with allocatedEnd := 1 }) :: a.chunks,
            a.nextId + 1⟩))) ∧
    (AllocState.run (List.replicate (kSlotsPerChunk + 1) (Op.alloc 0))).alloc.chunks.map
        (fun q => (q.1, q.2.allocatedEnd)) = [(1, 1), (0, kSlotsPerChunk)] :=
  ⟨allocateSlot_cases, by decide⟩

/-- Witness for claim C4: the concrete two-chunk boundary scenario, read off
through the theorem. -/
theorem c4_allocateSlot_structure_witness :
    (AllocState.run (List.replicate (kSlotsPerChunk + 1) (Op.alloc 0))).alloc.chunks.map
        (fun q => (q.1, q.2.allocatedEnd)) = [(1, 1), (0, kSlotsPerChunk)] :=
  c4_allocateSlot_structure.2

/-! ## Claim C7 -/

/-- Claim C7: slot reuse is LIFO. Allocating A, B, C in a fresh chunk hands
out slots `(0,0)`, `(0,1)`, `(0,2)` (handles listed newest first); after
dropping A, then B, then C, the next three allocations return C's slot, then
B's slot, then A's slot. -/
theorem c7_free_list_lifo :
    (AllocState.run [Op.alloc 1, Op.alloc 2, Op.alloc 3]).handles
        = [(0, 2), (0, 1), (0, 0)] ∧
    ((AllocState.run [Op.alloc 1, Op.alloc 2, Op.alloc 3,
        Op.drop 2, Op.drop 1, Op.drop 0]).alloc.allocate 4).1 = (0, 2) ∧
    (((AllocState.run [Op.alloc 1, Op.alloc 2, Op.alloc 3,
        Op.drop 2, Op.drop 1, Op.drop 0]).alloc.allocate 4).2.allocate 5).1 = (0, 1) ∧
    ((((AllocState.run [Op.alloc 1, Op.alloc 2, Op.alloc 3,
        Op.drop 2, Op.drop 1, Op.drop 0]).alloc.allocate 4).2.allocate 5).2.allocate 6).1
        = (0, 0) := by
  decide

/-! ## Well-formedness machinery for the quiescent-point invariant -/

theorem set_getD_self (sl : List Cell) (n : Nat) :
    sl.set n (sl.getD n Cell.uninit) = sl := by
  induction sl generalizing n with
  | nil => simp
  | cons a t ih =>
      cases n with
      | zero => simp [List.getD]
      | succ n =>
          simp only [List.getD_cons_succ, List.set_cons_succ]
          rw [ih]

theorem getD_set_self (sl : List Cell) (n : Nat) (x : Cell) (h : n < sl.length) :
    (sl.set n x).getD n Cell.uninit = x := by
  induction sl generalizing n with
  | nil => simp at h
  | cons a t ih =>
      cases n with
      | zero => simp [List.getD]
      | succ n =>
          simp only [List.set_cons_succ, List.getD_cons_succ]
          exact ih n (by simpa using h)

theorem nodup_length_le (l : List Nat) (n : Nat) (hn : l.Nodup)
    (hb : ∀ i ∈ l, i < n) : l.length ≤ n := by
  calc l.length = l.toFinset.card := (List.toFinset_card_of_nodup hn).symm
    _ ≤ (Finset.range n).card := by
        apply Finset.card_le_card
        intro i hi
        rw [List.mem_toFinset] at hi
        rw [Finset.mem_range]
        exact hb i hi
    _ = n := Finset.card_range n

theorem mem_unique_by_id {l : List (Nat × Chunk)} (h : (l.map Prod.fst).Nodup)
    {id : Nat} {c1 c2 : Chunk} (h1 : (id, c1) ∈ l) (h2 : (id, c2) ∈ l) :
    c1 = c2 := by
  induction l with
  | nil => cases h1
  | cons a t ih =>
      rw [List.map_cons, List.nodup_cons] at h
      rcases List.mem_cons.mp h1 with rfl | h1t
      · rcases List.mem_cons.mp h2 with he | h2t
        · exact ((Prod.mk.injEq _ _ _ _).mp he).2.symm
        · exact absurd (List.mem_map.mpr ⟨(id, c2), h2t, rfl⟩) h.1
      · rcases List.mem_cons.mp h2 with rfl | h2t
        · exact absurd (List.mem_map.mpr ⟨(id, c1), h1t, rfl⟩) h.1
        · exact ih h.2 h1t h2t

theorem chunkWF_fl_unique {c : Chunk} {fl1 fl2 : List Nat}
    (w1 : ChunkWF c fl1) (w2 : ChunkWF c fl2) : fl1 = fl2 :=
  Option.some.inj (w1.chain.symm.trans w2.chain)

theorem freeLen_eq {c : Chunk} {fl : List Nat} (w : ChunkWF c fl) :
    c.freeLen = fl.length := by
  unfold Chunk.freeLen Chunk.freeChain
  rw [w.chain]
  rfl

theorem chunkWF_fl_len_le {c : Chunk} {fl : List Nat} (w : ChunkWF c fl) :
    fl.length ≤ c.allocatedEnd :=
  nodup_length_le fl c.allocatedEnd w.nodup w.bdd

theorem tryAllocate_some_spec {c : Chunk} {fl : List Nat} (w : ChunkWF c fl)
    {i : Nat} {c' : Chunk} (h : c.tryAllocate = (some i, c')) :
    ∃ fl', ChunkWF c' fl' ∧
      c'.slots = c.slots ∧
      i < c'.allocatedEnd ∧ i ∉ fl' ∧
      c'.allocatedEnd - fl'.length = (c.allocatedEnd - fl.length) + 1 ∧
      (∀ j, j < c.allocatedEnd → j ∉ fl → j < c'.allocatedEnd ∧ j ∉ fl') ∧
      ¬(i < c.allocatedEnd ∧ i ∉ fl) := by
  unfold Chunk.tryAllocate at h
  cases hfl : c.freeList with
  | some h0 =>
      rw [hfl] at h
      rw [Prod.mk.injEq] at h
      obtain ⟨hi, hc⟩ := h
      have hi' : h0 = i := Option.some.inj hi
      subst hi'
      have hch := w.chain
      rw [hfl, chase_some] at hch
      cases hrec : chase c.slots kSlotsPerChunk
          ((c.slots.getD h0 Cell.uninit).getNativePointer) with
      | none => rw [hrec] at hch; cases hch
      | some fl0 =>
          rw [hrec] at hch
          have hfl0 : h0 :: fl0 = fl := Option.some.inj hch
          subst hfl0
          subst hc
          have hnodup := w.nodup
          rw [List.nodup_cons] at hnodup
          have hlen : fl0.length + 1 ≤ c.allocatedEnd := by
            have := chunkWF_fl_len_le w
            simpa using this
          refine ⟨fl0, ?_, rfl, ?_, hnodup.1, ?_, ?_, ?_⟩
          · refine ⟨w.slotsLen, w.endLe, ?_, hnodup.2, ?_⟩
            · exact chase_mono _ _ _ _ hrec _
                (Nat.le_succ_of_le (chase_length_le _ _ _ _ hrec))
            · intro j hj
              exact w.bdd j (List.mem_cons_of_mem _ hj)
          · exact w.bdd h0 (List.mem_cons_self _ _)
          · dsimp only
            simp only [List.length_cons]
            omega
          · intro j hj hjm
            exact ⟨hj, fun hm => hjm (List.mem_cons_of_mem _ hm)⟩
          · intro hcon
            exact hcon.2 (List.mem_cons_self _ _)
  | none =>
      rw [hfl] at h
      have hfl_nil : fl = [] := by
        have hch := w.chain
        rw [hfl, chase_none] at hch
        exact (Option.some.inj hch).symm
      subst hfl_nil
      by_cases hlt : c.allocatedEnd < kSlotsPerChunk
      · rw [if_pos hlt, Prod.mk.injEq] at h
        obtain ⟨hi, hc⟩ := h
        have hi' : c.allocatedEnd = i := Option.some.inj hi
        subst hc
        subst hi'
        refine ⟨[], ?_, rfl, ?_, by simp, ?_, ?_, ?_⟩
        · refine ⟨w.slotsLen, by dsimp only; omega, ?_, by simp, by simp⟩
          show chase c.slots (kSlotsPerChunk + 1) (none : Option Nat) = some []
          exact chase_none _ _
        · dsimp only
          omega
        · dsimp only
          simp
        · intro j hj _
          exact ⟨by dsimp only; omega, by simp⟩
        · intro hcon
          omega
      · rw [if_neg hlt, Prod.mk.injEq] at h
        cases h.1

theorem free_spec {c : Chunk} {fl : List Nat} (w : ChunkWF c fl)
    {i : Nat} (hi : i < c.allocatedEnd) (hnm : i ∉ fl) :
    ChunkWF (c.free i) (i :: fl) ∧
    (c.free i).allocatedEnd = c.allocatedEnd ∧
    (c.free i).allocatedEnd - (i :: fl).length + 1 = c.allocatedEnd - fl.length := by
  have hik : i < c.slots.length := by
    rw [w.slotsLen]
    exact Nat.lt_of_lt_of_le hi w.endLe
  have hflk : fl.length ≤ kSlotsPerChunk :=
    Nat.le_trans (chunkWF_fl_len_le w) w.endLe
  have hchain : chase (c.slots.set i (Cell.native c.freeList)) (kSlotsPerChunk + 1)
      (some i) = some (i :: fl) := by
    rw [chase_some, getD_set_self _ _ _ hik]
    simp only [Cell.getNativePointer]
    have h1 : chase (c.slots.set i (Cell.native c.freeList)) (kSlotsPerChunk + 1)
        c.freeList = some fl :=
      chase_set_not_mem _ _ _ _ _ _ w.chain hnm
    rw [chase_mono _ _ _ _ h1 kSlotsPerChunk hflk]
    rfl
  have hlen1 : (i :: fl).length ≤ c.allocatedEnd := by
    apply nodup_length_le
    · exact List.Nodup.cons hnm w.nodup
    · intro j hj
      rcases List.mem_cons.mp hj with rfl | hj'
      · exact hi
      · exact w.bdd j hj'
  refine ⟨⟨?_, w.endLe, hchain, List.Nodup.cons hnm w.nodup, ?_⟩, rfl, ?_⟩
  · show (c.slots.set i (Cell.native c.freeList)).length = kSlotsPerChunk
    rw [List.length_set, w.slotsLen]
  · intro j hj
    rcases List.mem_cons.mp hj with rfl | hj'
    · exact hi
    · exact w.bdd j hj'
  · have hre : (c.free i).allocatedEnd = c.allocatedEnd := rfl
    rw [hre]
    simp only [List.length_cons] at hlen1 ⊢
    omega

theorem map_fst_update (l : List (Nat × Chunk)) (id0 : Nat)
    (u : Nat × Chunk → Nat × Chunk) (hu : ∀ p, (u p).1 = p.1) :
    ((l.map fun p => if p.1 = id0 then u p else p).map Prod.fst)
      = l.map Prod.fst := by
  induction l with
  | nil => rfl
  | cons a t ih =>
      by_cases h : a.1 = id0
      · simp [h, ih, hu a]
      · simp [h, ih]

theorem mem_update_of_ne {l : List (Nat × Chunk)} (id0 : Nat)
    (u : Nat × Chunk → Nat × Chunk) {p : Nat × Chunk} (hp : p ∈ l)
    (hne : p.1 ≠ id0) :
    p ∈ l.map fun r => if r.1 = id0 then u r else r :=
  List.mem_map.mpr ⟨p, hp, by rw [if_neg hne]⟩

theorem mem_update_self {l : List (Nat × Chunk)} {id0 : Nat}
    (u : Nat × Chunk → Nat × Chunk) {c : Chunk} (hp : (id0, c) ∈ l) :
    u (id0, c) ∈ l.map fun r => if r.1 = id0 then u r else r :=
  List.mem_map.mpr ⟨(id0, c), hp, by simp⟩

theorem update_mem_inv {l : List (Nat × Chunk)} {id0 : Nat}
    {u : Nat × Chunk → Nat × Chunk} {r : Nat × Chunk}
    (hr : r ∈ l.map fun p => if p.1 = id0 then u p else p) :
    ∃ p ∈ l, (p.1 ≠ id0 ∧ r = p) ∨ (p.1 = id0 ∧ r = u p) := by
  obtain ⟨p, hp, he⟩ := List.mem_map.mp hr
  by_cases h : p.1 = id0
  · rw [if_pos h] at he
    exact ⟨p, hp, Or.inr ⟨h, he.symm⟩⟩
  · rw [if_neg h] at he
    exact ⟨p, hp, Or.inl ⟨h, he.symm⟩⟩

theorem map_update_id_of_not_mem {l : List (Nat × Chunk)} {id0 : Nat}
    (u : Nat × Chunk → Nat × Chunk) (h : id0 ∉ l.map Prod.fst) :
    (l.map fun p => if p.1 = id0 then u p else p) = l := by
  induction l with
  | nil => rfl
  | cons a t ih =>
      simp only [List.map_cons, List.mem_cons] at h
      push_neg at h
      rw [List.map_cons, if_neg (fun he => h.1 he.symm), ih h.2]

theorem sum_term_update {l : List (Nat × Chunk)} (id0 : Nat)
    (u : Nat × Chunk → Nat × Chunk) (g : Nat × Chunk → Nat)
    (hids : (l.map Prod.fst).Nodup) {c : Chunk} (hc : (id0, c) ∈ l) :
    ((l.map fun p => if p.1 = id0 then u p else p).map g).sum + g (id0, c)
      = (l.map g).sum + g (u (id0, c)) := by
  induction l with
  | nil => cases hc
  | cons a t ih =>
      rw [List.map_cons, List.nodup_cons] at hids
      by_cases h : a.1 = id0
      · have hac : a = (id0, c) := by
          rcases List.mem_cons.mp hc with he | ht
          · exact he.symm
          · exact absurd (h ▸ List.mem_map.mpr ⟨(id0, c), ht, rfl⟩) hids.1
        subst hac
        rw [List.map_cons, if_pos h, map_update_id_of_not_mem u (h ▸ hids.1)]
        simp only [List.map_cons, List.sum_cons]
        omega
      · have hct : (id0, c) ∈ t := by
          rcases List.mem_cons.mp hc with he | ht
          · exact absurd (congrArg Prod.fst he.symm) h
          · exact ht
        have := ih hids.2 hct
        simp only [List.map_cons, List.sum_cons, if_neg h]
        omega

theorem find?_id_eq {l : List (Nat × Chunk)} (hids : (l.map Prod.fst).Nodup)
    {id0 : Nat} {c : Chunk} (hc : (id0, c) ∈ l) :
    l.find? (fun q => q.1 == id0) = some (id0, c) := by
  induction l with
  | nil => cases hc
  | cons a t ih =>
      rw [List.map_cons, List.nodup_cons] at hids
      by_cases h : a.1 = id0
      · have hac : a = (id0, c) := by
          rcases List.mem_cons.mp hc with he | ht
          · exact he.symm
          · exact absurd (h ▸ List.mem_map.mpr ⟨(id0, c), ht, rfl⟩) hids.1
        subst hac
        rw [List.find?_cons]
        simp
      · have hct : (id0, c) ∈ t := by
          rcases List.mem_cons.mp hc with he | ht
          · exact absurd (congrArg Prod.fst he.symm) h
          · exact ht
        rw [List.find?_cons]
        have hb : (a.1 == id0) = false := by
          simp [h]
        rw [hb]
        exact ih hids.2 hct

theorem freeSlot_chunks_eq (a : Allocator) (q : SlotPtr) :
    (a.freeSlot q).chunks
      = a.chunks.map fun p =>
          if p.1 = q.1 then (p.1, p.2.free q.2) else p := rfl

theorem setSlotCell_chunks_eq (a : Allocator) (p : SlotPtr) (x : Cell) :
    (a.setSlotCell p x).chunks
      = a.chunks.map fun r =>
          if r.1 = p.1 then
            (r.1, Chunk.mk r.2.freeList r.2.allocatedEnd (r.2.slots.set p.2 x))
          else r := rfl

theorem freeSlot_spec {a : Allocator} (w : AllocWF a) {q : SlotPtr}
    (hl : LiveIn a q) :
    AllocWF (a.freeSlot q) ∧
    (a.freeSlot q).countLiveSlots + 1 = a.countLiveSlots ∧
    (∀ r, LiveIn a r → r ≠ q → LiveIn (a.freeSlot q) r) := by
  obtain ⟨c, fl, hc, wc, hq2, hqm⟩ := hl
  obtain ⟨wfree, hend, hcount⟩ := free_spec wc hq2 hqm
  have hchm : ∀ {p : Nat × Chunk}, p ∈ a.chunks → p.1 = q.1 → p.2 = c := by
    intro p hp he
    have hmem : (q.1, p.2) ∈ a.chunks := by
      have hpe : p = (q.1, p.2) := Prod.ext he rfl
      rw [← hpe]
      exact hp
    exact mem_unique_by_id w.ids hmem hc
  have hufst : ∀ p : Nat × Chunk, ((p.1, p.2.free q.2) : Nat × Chunk).1 = p.1 :=
    fun _ => rfl
  refine ⟨⟨?_, ?_, ?_⟩, ?_, ?_⟩
  · rw [freeSlot_chunks_eq, map_fst_update _ _ _ hufst]
    exact w.ids
  · intro p hp
    rw [freeSlot_chunks_eq] at hp
    obtain ⟨p0, hp0, hca⟩ := update_mem_inv hp
    rcases hca with ⟨_, heq0⟩ | ⟨_, heq0⟩ <;> rw [heq0] <;> exact w.idLt p0 hp0
  · intro p hp
    rw [freeSlot_chunks_eq] at hp
    obtain ⟨p0, hp0, hca⟩ := update_mem_inv hp
    rcases hca with ⟨_, heq0⟩ | ⟨he, heq0⟩
    · rw [heq0]
      exact w.cwf p0 hp0
    · rw [heq0]
      have hp0c : p0.2 = c := hchm hp0 he
      refine ⟨q.2 :: fl, ?_⟩
      show ChunkWF (p0.2.free q.2) (q.2 :: fl)
      rw [hp0c]
      exact wfree
  · have hsum := sum_term_update q.1 (fun p => (p.1, p.2.free q.2))
      (fun p => p.2.allocatedEnd - p.2.freeLen) w.ids hc
    dsimp only at hsum
    unfold Allocator.countLiveSlots
    rw [freeSlot_chunks_eq]
    have hgc : c.allocatedEnd - c.freeLen = c.allocatedEnd - fl.length := by
      rw [freeLen_eq wc]
    have hgf : (c.free q.2).allocatedEnd - (c.free q.2).freeLen
        = c.allocatedEnd - (fl.length + 1) := by
      rw [freeLen_eq wfree, hend]
      simp
    rw [hgc, hgf] at hsum
    have hflen : fl.length + 1 ≤ c.allocatedEnd := by
      have h1 := chunkWF_fl_len_le wfree
      rw [hend] at h1
      simpa using h1
    omega
  · intro r hr hne
    obtain ⟨cr, flr, hcr, wcr, h2, h3⟩ := hr
    by_cases hid : r.1 = q.1
    · have hcrc : cr = c := by
        apply mem_unique_by_id w.ids _ hc
        rw [← hid]
        exact hcr
      subst hcrc
      have hflr : flr = fl := chunkWF_fl_unique wcr wc
      subst hflr
      have hval : r.2 ≠ q.2 := by
        intro he
        exact hne (Prod.ext hid he)
      refine ⟨cr.free q.2, q.2 :: flr, ?_, wfree, ?_, ?_⟩
      · rw [freeSlot_chunks_eq]
        have hmem : (q.1, cr) ∈ a.chunks := by
          rw [← hid]
          exact hcr
        have := mem_update_self (fun p => (p.1, p.2.free q.2)) hmem
        dsimp only at this
        rw [hid]
        exact this
      · rw [hend]
        exact h2
      · intro hm
        rcases List.mem_cons.mp hm with he | hm'
        · exact hval he
        · exact h3 hm'
    · refine ⟨cr, flr, ?_, wcr, h2, h3⟩
      rw [freeSlot_chunks_eq]
      exact mem_update_of_ne q.1 _ hcr hid

theorem setCell_chunk_spec {c : Chunk} {fl : List Nat} (w : ChunkWF c fl)
    {i : Nat} (hnm : i ∉ fl) (x : Cell) :
    ChunkWF (Chunk.mk c.freeList c.allocatedEnd (c.slots.set i x)) fl := by
  refine ⟨?_, w.endLe, ?_, w.nodup, w.bdd⟩
  · show (c.slots.set i x).length = kSlotsPerChunk
    rw [List.length_set, w.slotsLen]
  · show chase (c.slots.set i x) (kSlotsPerChunk + 1) c.freeList = some fl
    exact chase_set_not_mem _ _ _ _ _ _ w.chain hnm

theorem setSlotCell_spec {a : Allocator} (w : AllocWF a) {p : SlotPtr}
    (hl : LiveIn a p) (x : Cell) :
    AllocWF (a.setSlotCell p x) ∧
    (a.setSlotCell p x).countLiveSlots = a.countLiveSlots ∧
    (∀ r, LiveIn a r → LiveIn (a.setSlotCell p x) r) ∧
    (a.setSlotCell p x).getSlotCell p = x := by
  obtain ⟨c, fl, hc, wc, hp2, hpm⟩ := hl
  have wset := setCell_chunk_spec wc hpm x
  have hchm : ∀ {r : Nat × Chunk}, r ∈ a.chunks → r.1 = p.1 → r.2 = c := by
    intro r hr he
    have hmem : (p.1, r.2) ∈ a.chunks := by
      have hre : r = (p.1, r.2) := Prod.ext he rfl
      rw [← hre]
      exact hr
    exact mem_unique_by_id w.ids hmem hc
  have hufst : ∀ r : Nat × Chunk,
      ((r.1, Chunk.mk r.2.freeList r.2.allocatedEnd (r.2.slots.set p.2 x)) :
        Nat × Chunk).1 = r.1 :=
    fun _ => rfl
  refine ⟨⟨?_, ?_, ?_⟩, ?_, ?_, ?_⟩
  · rw [setSlotCell_chunks_eq, map_fst_update _ _ _ hufst]
    exact w.ids
  · intro r hr
    rw [setSlotCell_chunks_eq] at hr
    obtain ⟨r0, hr0, hca⟩ := update_mem_inv hr
    rcases hca with ⟨_, heq0⟩ | ⟨_, heq0⟩ <;> rw [heq0] <;> exact w.idLt r0 hr0
  · intro r hr
    rw [setSlotCell_chunks_eq] at hr
    obtain ⟨r0, hr0, hca⟩ := update_mem_inv hr
    rcases hca with ⟨_, heq0⟩ | ⟨he, heq0⟩
    · rw [heq0]
      exact w.cwf r0 hr0
    · rw [heq0]
      have hr0c : r0.2 = c := hchm hr0 he
      refine ⟨fl, ?_⟩
      show ChunkWF (Chunk.mk r0.2.freeList r0.2.allocatedEnd (r0.2.slots.set p.2 x)) fl
      rw [hr0c]
      exact wset
  · have hsum := sum_term_update p.1
      (fun r => (r.1, Chunk.mk r.2.freeList r.2.allocatedEnd (r.2.slots.set p.2 x)))
      (fun r => r.2.allocatedEnd - r.2.freeLen) w.ids hc
    dsimp only at hsum
    unfold Allocator.countLiveSlots
    rw [setSlotCell_chunks_eq]
    have hg : (Chunk.mk c.freeList c.allocatedEnd (c.slots.set p.2 x)).allocatedEnd -
        (Chunk.mk c.freeList c.allocatedEnd (c.slots.set p.2 x)).freeLen
        = c.allocatedEnd - c.freeLen := by
      rw [freeLen_eq wset, freeLen_eq wc]
    rw [hg] at hsum
    omega
  · intro r hr
    obtain ⟨cr, flr, hcr, wcr, h2, h3⟩ := hr
    by_cases hid : r.1 = p.1
    · have hcrc : cr = c := by
        apply mem_unique_by_id w.ids _ hc
        rw [← hid]
        exact hcr
      subst hcrc
      have hflr : flr = fl := chunkWF_fl_unique wcr wc
      subst hflr
      refine ⟨Chunk.mk cr.freeList cr.allocatedEnd (cr.slots.set p.2 x), flr,
        ?_, wset, h2, h3⟩
      rw [setSlotCell_chunks_eq]
      have hmem : (p.1, cr) ∈ a.chunks := by
        rw [← hid]
        exact hcr
      have hms := mem_update_self
        (fun r => (r.1, Chunk.mk r.2.freeList r.2.allocatedEnd (r.2.slots.set p.2 x)))
        hmem
      dsimp only at hms
      rw [hid]
      exact hms
    · refine ⟨cr, flr, ?_, wcr, h2, h3⟩
      rw [setSlotCell_chunks_eq]
      exact mem_update_of_ne p.1 _ hcr hid
  · unfold Allocator.getSlotCell
    have hfind : (a.setSlotCell p x).chunks.find? (fun q => q.1 == p.1)
        = some (p.1, Chunk.mk c.freeList c.allocatedEnd (c.slots.set p.2 x)) := by
      rw [setSlotCell_chunks_eq]
      apply find?_id_eq
      · rw [map_fst_update _ _ _ hufst]
        exact w.ids
      · have hms := mem_update_self
          (fun r => (r.1, Chunk.mk r.2.freeList r.2.allocatedEnd (r.2.slots.set p.2 x)))
          hc
        dsimp only at hms
        exact hms
    rw [hfind]
    apply getD_set_self
    rw [wc.slotsLen]
    exact Nat.lt_of_lt_of_le hp2 wc.endLe

theorem wf_freshBumped : ChunkWF freshBumped [] := by
  refine ⟨?_, ?_, ?_, List.nodup_nil, ?_⟩
  · show (List.replicate kSlotsPerChunk Cell.uninit).length = kSlotsPerChunk
    exact List.length_replicate _ _
  · show 1 ≤ kSlotsPerChunk
    decide
  · show chase (List.replicate kSlotsPerChunk Cell.uninit) (kSlotsPerChunk + 1)
      (none : Option Nat) = some []
    exact chase_none _ _
  · intro i hi
    cases hi

theorem allocateSlot_spec {a : Allocator} (w : AllocWF a) :
    AllocWF (a.allocateSlot).2 ∧
    (a.allocateSlot).2.countLiveSlots = a.countLiveSlots + 1 ∧
    LiveIn (a.allocateSlot).2 (a.allocateSlot).1 ∧
    ¬ LiveIn a (a.allocateSlot).1 ∧
    (∀ r, LiveIn a r → LiveIn (a.allocateSlot).2 r) := by
  rcases allocateSlot_cases a with
    ⟨pre, id, c, c', i, suf, hdec, hpre, htc, heq⟩ | ⟨hfull, heq⟩
  · have hcm : (id, c) ∈ a.chunks := by
      rw [hdec]
      exact List.mem_append.mpr (Or.inr (List.mem_cons_self _ _))
    obtain ⟨fl, wc0⟩ := w.cwf (id, c) hcm
    have wc : ChunkWF c fl := wc0
    obtain ⟨fl', wc', hslots, hi, hnm', hcnt, hlive, hnlive⟩ :=
      tryAllocate_some_spec wc htc
    have hmemtail : ∀ p : Nat × Chunk, p ∈ pre ++ suf → p ∈ a.chunks := by
      intro p hp
      rw [hdec]
      rcases List.mem_append.mp hp with h1 | h1
      · exact List.mem_append.mpr (Or.inl h1)
      · exact List.mem_append.mpr (Or.inr (List.mem_cons_of_mem _ h1))
    rw [heq]
    dsimp only
    refine ⟨⟨?_, ?_, ?_⟩, ?_, ?_, ?_, ?_⟩
    · show ((((id, c') :: (pre ++ suf)).map Prod.fst)).Nodup
      have hperm : ((pre ++ (id, c) :: suf).map Prod.fst).Perm
          (id :: ((pre ++ suf).map Prod.fst)) := by
        rw [List.map_append, List.map_cons, List.map_append]
        exact List.perm_middle
      have hods : ((pre ++ (id, c) :: suf).map Prod.fst).Nodup := by
        rw [← hdec]
        exact w.ids
      rw [List.map_cons]
      exact hperm.nodup hods
    · intro p hp
      rcases List.mem_cons.mp hp with rfl | hp'
      · exact w.idLt (id, c) hcm
      · exact w.idLt p (hmemtail p hp')
    · intro p hp
      rcases List.mem_cons.mp hp with rfl | hp'
      · exact ⟨fl', wc'⟩
      · exact w.cwf p (hmemtail p hp')
    · show ((((id, c') :: (pre ++ suf)).map
        fun q => q.2.allocatedEnd - q.2.freeLen).sum)
        = a.countLiveSlots + 1
      unfold Allocator.countLiveSlots
      rw [hdec]
      simp only [List.map_cons, List.map_append, List.sum_cons, List.sum_append,
        freeLen_eq wc, freeLen_eq wc']
      omega
    · exact ⟨c', fl', List.mem_cons_self _ _, wc', hi, hnm'⟩
    · intro hcon
      obtain ⟨cx, flx, hmx, wx, h2x, h3x⟩ := hcon
      have hcx : cx = c := mem_unique_by_id w.ids hmx hcm
      subst hcx
      have hflx : flx = fl := chunkWF_fl_unique wx wc
      subst hflx
      exact hnlive ⟨h2x, h3x⟩
    · intro r hr
      obtain ⟨cr, flr, hmr, wr, h2r, h3r⟩ := hr
      rw [hdec] at hmr
      rcases List.mem_append.mp hmr with h1 | h1
      · exact ⟨cr, flr,
          List.mem_cons_of_mem _ (List.mem_append.mpr (Or.inl h1)), wr, h2r, h3r⟩
      · rcases List.mem_cons.mp h1 with he | h1'
        · have hrid : r.1 = id := congrArg Prod.fst he
          have hcr : cr = c := by
            injection he with e1 e2
          subst hcr
          have hflr : flr = fl := chunkWF_fl_unique wr wc
          subst hflr
          obtain ⟨h2', h3'⟩ := hlive r.2 h2r h3r
          refine ⟨c', fl', ?_, wc', h2', h3'⟩
          rw [hrid]
          exact List.mem_cons_self _ _
        · exact ⟨cr, flr,
            List.mem_cons_of_mem _ (List.mem_append.mpr (Or.inr h1')), wr, h2r, h3r⟩
  · have wcF := wf_freshBumped
    rw [heq]
    dsimp only
    refine ⟨⟨?_, ?_, ?_⟩, ?_, ?_, ?_, ?_⟩
    · rw [List.map_cons]
      apply List.Nodup.cons
      · intro hmem
        obtain ⟨p, hp, he⟩ := List.mem_map.mp hmem
        have hlt := w.idLt p hp
        omega
      · exact w.ids
    · intro p hp
      show p.1 < a.nextId + 1
      rcases List.mem_cons.mp hp with rfl | hp'
      · show a.nextId < a.nextId + 1
        omega
      · have hlt := w.idLt p hp'
        omega
    · intro p hp
      rcases List.mem_cons.mp hp with rfl | hp'
      · exact ⟨[], wcF⟩
      · exact w.cwf p hp'
    · show ((((a.nextId, freshBumped) :: a.chunks).map
        fun q => q.2.allocatedEnd - q.2.freeLen).sum) = a.countLiveSlots + 1
      unfold Allocator.countLiveSlots
      simp only [List.map_cons, List.sum_cons]
      have hgF : freshBumped.allocatedEnd - freshBumped.freeLen = 1 := by decide
      rw [hgF]
      omega
    · refine ⟨freshBumped, [], List.mem_cons_self _ _, wcF, ?_, ?_⟩
      · show 0 < freshBumped.allocatedEnd
        decide
      · simp
    · intro hcon
      obtain ⟨cx, flx, hmx, wx, h2x, h3x⟩ := hcon
      have hm5 : (a.nextId, cx) ∈ a.chunks := hmx
      have hm6 : a.nextId < a.nextId := w.idLt (a.nextId, cx) hm5
      omega
    · intro r hr
      obtain ⟨cr, flr, hmr, wr, h2r, h3r⟩ := hr
      exact ⟨cr, flr, List.mem_cons_of_mem _ hmr, wr, h2r, h3r⟩

theorem allocate_spec {a : Allocator} (w : AllocWF a) (v : Nat) :
    AllocWF (a.allocate v).2 ∧
    (a.allocate v).2.countLiveSlots = a.countLiveSlots + 1 ∧
    LiveIn (a.allocate v).2 (a.allocate v).1 ∧
    ¬ LiveIn a (a.allocate v).1 ∧
    (∀ r, LiveIn a r → LiveIn (a.allocate v).2 r) ∧
    (a.allocate v).2.getSlotCell (a.allocate v).1 = Cell.value v := by
  obtain ⟨w1, hc1, hl1, hnl1, hp1⟩ := allocateSlot_spec w
  obtain ⟨w2, hc2, hp2, hget⟩ := setSlotCell_spec w1 hl1 (Cell.value v)
  unfold Allocator.allocate
  dsimp only
  exact ⟨w2, by rw [hc2, hc1], hp2 _ hl1, hnl1, fun r hr => hp2 r (hp1 r hr), hget⟩

theorem get_not_mem_eraseIdx (l : List SlotPtr) (k : Nat) (h : k < l.length)
    (hn : l.Nodup) : l.get ⟨k, h⟩ ∉ l.eraseIdx k := by
  induction l generalizing k with
  | nil => cases h
  | cons a t ih =>
      rw [List.nodup_cons] at hn
      cases k with
      | zero =>
          show (a :: t).get ⟨0, h⟩ ∉ t
          exact hn.1
      | succ k =>
          show t.get ⟨k, by simpa using h⟩ ∉ a :: t.eraseIdx k
          intro hm
          rcases List.mem_cons.mp hm with he | hm'
          · have hmem := List.get_mem t k (by simpa using h)
            rw [he] at hmem
            exact hn.1 hmem
          · exact ih k (by simpa using h) hn.2 hm'

theorem initAllocWF : AllocWF Allocator.init := by
  refine ⟨?_, ?_, ?_⟩
  · show (([] : List (Nat × Chunk)).map Prod.fst).Nodup
    simp
  · intro p hp
    cases hp
  · intro p hp
    cases hp

theorem initStateWF : StateWF AllocState.init := by
  refine ⟨initAllocWF, ?_, ?_⟩
  · show ([] : List SlotPtr).Nodup
    simp
  · intro q hq
    cases hq

theorem step_invariant {s : AllocState} (w : StateWF s)
    (hcnt : s.alloc.countLiveSlots = s.handles.length) (op : Op) :
    StateWF (s.step op) ∧
    (s.step op).alloc.countLiveSlots = (s.step op).handles.length := by
  cases op with
  | alloc v =>
      obtain ⟨w2, hc2, hl2, hnl2, hp2, hget⟩ := allocate_spec w.awf v
      constructor
      · refine ⟨w2, ?_, ?_⟩
        · show ((s.alloc.allocate v).1 :: s.handles).Nodup
          apply List.Nodup.cons
          · intro hm
            exact hnl2 (w.hval _ hm)
          · exact w.hnd
        · intro q hq
          rcases List.mem_cons.mp hq with rfl | hq'
          · exact hl2
          · exact hp2 q (w.hval q hq')
      · show (s.alloc.allocate v).2.countLiveSlots
          = ((s.alloc.allocate v).1 :: s.handles).length
        rw [hc2, hcnt]
        simp
  | drop k =>
      by_cases h : k < s.handles.length
      · have hq : LiveIn s.alloc (s.handles.get ⟨k, h⟩) :=
          w.hval _ (List.get_mem _ _ _)
        obtain ⟨w2, hc2, hp2⟩ := freeSlot_spec w.awf hq
        have hstep : s.step (Op.drop k) =
            ⟨s.alloc.freeSlot (s.handles.get ⟨k, h⟩), s.handles.eraseIdx k⟩ := by
          unfold AllocState.step
          dsimp only
          rw [dif_pos h]
        rw [hstep]
        constructor
        · refine ⟨w2, List.Nodup.eraseIdx k w.hnd, ?_⟩
          intro q hqm
          have hq1 : q ∈ s.handles := List.mem_of_mem_eraseIdx hqm
          have hqn : q ≠ s.handles.get ⟨k, h⟩ := by
            intro he
            rw [he] at hqm
            exact get_not_mem_eraseIdx s.handles k h w.hnd hqm
          exact hp2 q (w.hval q hq1) hqn
        · show (s.alloc.freeSlot (s.handles.get ⟨k, h⟩)).countLiveSlots
            = (s.handles.eraseIdx k).length
          rw [List.length_eraseIdx, if_pos h]
          omega
      · have hstep : s.step (Op.drop k) = s := by
          unfold AllocState.step
          dsimp only
          rw [dif_neg h]
        rw [hstep]
        exact ⟨w, hcnt⟩

theorem foldl_invariant (ops : List Op) :
    ∀ s : AllocState, StateWF s → s.alloc.countLiveSlots = s.handles.length →
      StateWF (ops.foldl AllocState.step s) ∧
      (ops.foldl AllocState.step s).alloc.countLiveSlots
        = (ops.foldl AllocState.step s).handles.length := by
  induction ops with
  | nil => exact fun s hw hc => ⟨hw, hc⟩
  | cons op t ih =>
      intro s hw hc
      obtain ⟨hw', hc'⟩ := step_invariant hw hc op
      exact ih (s.step op) hw' hc'

theorem run_invariant (ops : List Op) :
    StateWF (AllocState.run ops) ∧
    (AllocState.run ops).alloc.countLiveSlots
      = (AllocState.run ops).handles.length :=
  foldl_invariant ops AllocState.init initStateWF rfl

/-- Claim C1: for every finite sequence of allocate and handle-drop
operations from a fresh allocator, at every quiescent point the number of
outstanding valid handles equals `count_live_slots`, the sum over chunks of
`allocatedEnd` minus the free-list length; moreover every chunk's free list
is acyclic (its walk terminates, yielding a duplicate-free list), every entry
on it is an index of that same chunk below `allocatedEnd`, and its length
never exceeds `allocatedEnd`. -/
theorem c1_quiescent_invariant (ops : List Op) :
    (AllocState.run ops).handles.length
      = (AllocState.run ops).alloc.countLiveSlots ∧
    ∀ p ∈ (AllocState.run ops).alloc.chunks, ∃ fl,
      chase p.2.slots (kSlotsPerChunk + 1) p.2.freeList = some fl ∧
      fl.Nodup ∧ (∀ i ∈ fl, i < p.2.allocatedEnd) ∧
      fl.length ≤ p.2.allocatedEnd := by
  obtain ⟨hw, hc⟩ := run_invariant ops
  constructor
  · exact hc.symm
  · intro p hp
    obtain ⟨fl, wp⟩ := hw.awf.cwf p hp
    exact ⟨fl, wp.chain, wp.nodup, wp.bdd, chunkWF_fl_len_le wp⟩

/-- Witness for claim C1: the invariant instantiated on the concrete
operation sequence alloc 5, alloc 6, drop 0. -/
theorem c1_quiescent_invariant_witness :
    (AllocState.run [Op.alloc 5, Op.alloc 6, Op.drop 0]).handles.length
      = (AllocState.run [Op.alloc 5, Op.alloc 6, Op.drop 0]).alloc.countLiveSlots ∧
    ∀ p ∈ (AllocState.run [Op.alloc 5, Op.alloc 6, Op.drop 0]).alloc.chunks, ∃ fl,
      chase p.2.slots (kSlotsPerChunk + 1) p.2.freeList = some fl ∧
      fl.Nodup ∧ (∀ i ∈ fl, i < p.2.allocatedEnd) ∧
      fl.length ≤ p.2.allocatedEnd :=
  c1_quiescent_invariant [Op.alloc 5, Op.alloc 6, Op.drop 0]

/-! ## Claim C6 -/

/-- Claim C6: for every representable value `v`, the handle returned by
`allocate(v)` reads back `v` through `get` (encode/decode round-trip); and
after storing `v2` through the handle's mutable capability, `get` reads back
`v2`. This holds for every well-formed allocator state, so in particular both
when the slot comes from the bump cursor and when it comes from the free
list. -/
theorem c6_allocate_get_roundtrip (a : Allocator) (v v2 : Nat) (w : AllocWF a) :
    dynGet (a.allocate v).2 (a.allocate v).1 = some v ∧
    dynGet (dynSet (a.allocate v).2 (a.allocate v).1 v2) (a.allocate v).1
      = some v2 := by
  obtain ⟨w2, hc2, hl2, hnl2, hp2, hget⟩ := allocate_spec w v
  constructor
  · unfold dynGet
    rw [hget]
  · obtain ⟨w3, hc3, hp3, hget3⟩ := setSlotCell_spec w2 hl2 (Cell.value v2)
    unfold dynGet dynSet
    rw [hget3]

/-- Witness for claim C6: the round trip on the empty allocator with values
7 and 9. -/
theorem c6_allocate_get_roundtrip_witness :
    dynGet (Allocator.init.allocate 7).2 (Allocator.init.allocate 7).1 = some 7 ∧
    dynGet (dynSet (Allocator.init.allocate 7).2 (Allocator.init.allocate 7).1 9)
      (Allocator.init.allocate 7).1 = some 9 :=
  c6_allocate_get_roundtrip Allocator.init 7 9 initAllocWF

/-! ## Claim C9 -/

/-- Claim C9: destroying an invalid DynHandle (default-constructed or
moved-from) is a no-op on the allocator: the state is returned unchanged, so
no free list, `allocatedEnd`, slot contents or chunk-list structure change.
Only a valid handle's destruction pushes its slot onto its chunk's free
list. -/
theorem c9_invalid_dtor_noop :
    (∀ a : Allocator, dynHandleDtor a none = a) ∧
    (∀ (a : Allocator) (p : SlotPtr) (c : Chunk), (p.1, c) ∈ a.chunks →
      (p.1, c.free p.2) ∈ (dynHandleDtor a (some p)).chunks ∧
      (c.free p.2).freeList = some p.2 ∧
      (dynHandleDtor a (some p)).nextId = a.nextId) := by
  constructor
  · intro a
    rfl
  · intro a p c hc
    refine ⟨?_, rfl, rfl⟩
    show (p.1, c.free p.2) ∈ (a.freeSlot p).chunks
    rw [freeSlot_chunks_eq]
    have hms := mem_update_self (fun r => (r.1, r.2.free p.2)) hc
    dsimp only at hms
    exact hms

/-- Witness for claim C9: a one-chunk allocator; destroying the invalid
handle leaves it unchanged, destroying a valid handle on slot 1 pushes that
slot. -/
theorem c9_invalid_dtor_noop_witness :
    dynHandleDtor ⟨[(0, chunkBumpExample)], 1⟩ none = ⟨[(0, chunkBumpExample)], 1⟩ ∧
    ((0, 1) : SlotPtr).2 = 1 ∧
    (((0, 1) : SlotPtr).1, chunkBumpExample.free ((0, 1) : SlotPtr).2)
        ∈ (dynHandleDtor ⟨[(0, chunkBumpExample)], 1⟩ (some (0, 1))).chunks ∧
    (chunkBumpExample.free ((0, 1) : SlotPtr).2).freeList = some 1 := by
  have h := c9_invalid_dtor_noop
  have h2 := h.2 ⟨[(0, chunkBumpExample)], 1⟩ (0, 1) chunkBumpExample (by decide)
  exact ⟨h.1 _, rfl, h2.1, h2.2.1⟩

/-! ## Claim C10 -/

/-- Claim C10: self-move-assignment destroys the value. For a valid handle on
slot `p`, executing `h = std::move(h)` runs `freeThis` (which frees the slot
and nulls the pointer) and then swaps the slot pointer with itself; the
result is the freed allocator and an invalid handle, the slot is on its
chunk's free list, and its cell now holds a native pointer, so no stored
value is preserved. -/
theorem c10_self_move_assign (a : Allocator) (p : SlotPtr) (c : Chunk)
    (hc : (p.1, c) ∈ a.chunks) (hlen : p.2 < c.slots.length) :
    dynHandleSelfMoveAssign a (some p) = (a.freeSlot p, none) ∧
    (p.1, c.free p.2) ∈ (dynHandleSelfMoveAssign a (some p)).1.chunks ∧
    (c.free p.2).freeList = some p.2 ∧
    ∀ v, (c.free p.2).slots.getD p.2 Cell.uninit ≠ Cell.value v := by
  refine ⟨rfl, ?_, rfl, ?_⟩
  · show (p.1, c.free p.2) ∈ (a.freeSlot p).chunks
    rw [freeSlot_chunks_eq]
    have hms := mem_update_self (fun r => (r.1, r.2.free p.2)) hc
    dsimp only at hms
    exact hms
  · intro v
    show (c.slots.set p.2 (Cell.native c.freeList)).getD p.2 Cell.uninit
      ≠ Cell.value v
    rw [getD_set_self _ _ _ hlen]
    intro hcon
    cases hcon

/-- Witness for claim C10: self-move-assignment of a valid handle on slot 1
of a one-chunk allocator. -/
theorem c10_self_move_assign_witness :
    dynHandleSelfMoveAssign ⟨[(0, chunkBumpExample)], 1⟩ (some (0, 1))
        = (Allocator.freeSlot ⟨[(0, chunkBumpExample)], 1⟩ (0, 1), none) ∧
    (((0, 1) : SlotPtr).1, chunkBumpExample.free ((0, 1) : SlotPtr).2)
        ∈ (dynHandleSelfMoveAssign ⟨[(0, chunkBumpExample)], 1⟩ (some (0, 1))).1.chunks ∧
    (chunkBumpExample.free ((0, 1) : SlotPtr).2).freeList = some 1 ∧
    ∀ v, (chunkBumpExample.free ((0, 1) : SlotPtr).2).slots.getD 1 Cell.uninit
        ≠ Cell.value v := by
  have h := c10_self_move_assign ⟨[(0, chunkBumpExample)], 1⟩ (0, 1)
    chunkBumpExample (by decide) (by decide)
  exact ⟨h.1, h.2.1, h.2.2.1, h.2.2.2⟩

/-! ## Claim C8 -/

theorem slowPathChecked_cases (a : Allocator) (pf : Bool) :
    (pf = true → a.slowPathChecked pf = some a.allocateSlotSlowPath) ∧
    (a.slowPathChecked pf = none → pf = false ∧ scanChunks a.chunks = none) ∧
    (∀ r, a.slowPathChecked pf = some r → r = a.allocateSlotSlowPath) := by
  cases hsc : scanChunks a.chunks with
  | some r0 =>
      have he : a.slowPathChecked pf = some a.allocateSlotSlowPath := by
        unfold Allocator.slowPathChecked Allocator.allocateSlotSlowPath
        rw [hsc]
      refine ⟨fun _ => he, fun h => ?_, fun r h => ?_⟩
      · rw [he] at h
        cases h
      · rw [he] at h
        exact (Option.some.inj h).symm
  | none =>
      cases pf with
      | true =>
          have he : a.slowPathChecked true = some a.allocateSlotSlowPath := by
            unfold Allocator.slowPathChecked Allocator.allocateSlotSlowPath
            rw [hsc]
            rfl
          refine ⟨fun _ => he, fun h => ?_, fun r h => ?_⟩
          · rw [he] at h
            cases h
          · rw [he] at h
            exact (Option.some.inj h).symm
      | false =>
          have he : a.slowPathChecked false = none := by
            unfold Allocator.slowPathChecked
            rw [hsc]
            rfl
          refine ⟨?_, ?_, ?_⟩
          · intro hcon
            cases hcon
          · intro _
            exact ⟨rfl, rfl⟩
          · intro r h
            rw [he] at h
            cases h

theorem checked_vs_plain (a : Allocator) (pf : Bool) :
    (a.allocateSlotChecked pf = none → pf = false ∧ ∀ p ∈ a.chunks, p.2.isFull) ∧
    (∀ r, a.allocateSlotChecked pf = some r → r = a.allocateSlot) := by
  rcases hchs : a.chunks with _ | ⟨⟨id, c⟩, rest⟩
  · have hredC : a.allocateSlotChecked pf = a.slowPathChecked pf := by
      unfold Allocator.allocateSlotChecked
      rw [hchs]
    have hredP : a.allocateSlot = a.allocateSlotSlowPath := by
      unfold Allocator.allocateSlot
      rw [hchs]
    obtain ⟨h1, h2, h3⟩ := slowPathChecked_cases a pf
    constructor
    · intro h
      rw [hredC] at h
      obtain ⟨hpf, _⟩ := h2 h
      exact ⟨hpf, fun p hp => by cases hp⟩
    · intro r h
      rw [hredC] at h
      rw [hredP]
      exact h3 r h
  · rcases htc : c.tryAllocate with ⟨o, c2⟩
    cases o with
    | some i =>
        have hredC : a.allocateSlotChecked pf
            = some ((id, i), { a with chunks := (id, c2) :: rest }) := by
          unfold Allocator.allocateSlotChecked
          rw [hchs]
          have hm : (match c.tryAllocate with
              | (some i, c') => some ((id, i), { a with chunks := (id, c') :: rest })
              | (none, _) => a.slowPathChecked pf) =
              some ((id, i), { a with chunks := (id, c2) :: rest }) := by
            rw [htc]
          exact hm
        have hredP : a.allocateSlot
            = ((id, i), { a with chunks := (id, c2) :: rest }) := by
          unfold Allocator.allocateSlot
          rw [hchs]
          have hm : (match c.tryAllocate with
              | (some i, c') => ((id, i), { a with chunks := (id, c') :: rest })
              | (none, _) => a.allocateSlotSlowPath) =
              ((id, i), { a with chunks := (id, c2) :: rest }) := by
            rw [htc]
          exact hm
        constructor
        · intro h
          rw [hredC] at h
          cases h
        · intro r h
          rw [hredC] at h
          rw [hredP]
          exact (Option.some.inj h).symm
    | none =>
        have hredC : a.allocateSlotChecked pf = a.slowPathChecked pf := by
          unfold Allocator.allocateSlotChecked
          rw [hchs]
          have hm : (match c.tryAllocate with
              | (some i, c') => some ((id, i), { a with chunks := (id, c') :: rest })
              | (none, _) => a.slowPathChecked pf) = a.slowPathChecked pf := by
            rw [htc]
          exact hm
        have hredP : a.allocateSlot = a.allocateSlotSlowPath := by
          unfold Allocator.allocateSlot
          rw [hchs]
          have hm : (match c.tryAllocate with
              | (some i, c') => ((id, i), { a with chunks := (id, c') :: rest })
              | (none, _) => a.allocateSlotSlowPath) = a.allocateSlotSlowPath := by
            rw [htc]
          exact hm
        obtain ⟨h1, h2, h3⟩ := slowPathChecked_cases a pf
        constructor
        · intro h
          rw [hredC] at h
          obtain ⟨hpf, hscn⟩ := h2 h
          refine ⟨hpf, ?_⟩
          rw [← hchs]
          exact (scanChunks_none_iff a.chunks).mp hscn
        · intro r h
          rw [hredC] at h
          rw [hredP]
          exact h3 r h

/-- Claim C8: `allocate` never returns a failure to its caller. The only
failure it can encounter is the platform aligned allocation failing on the
exhaustion path (every chunk full); in that case the operation is fatal
(modelled as `none`). Whenever the operation does not abort, it returns
exactly the result of the total allocation function, and, on a well-formed
allocator, that result is a valid (live) handle. -/
theorem c8_allocate_fatal_or_valid (a : Allocator) (pf : Bool) :
    (a.allocateSlotChecked pf = none →
      pf = false ∧ ∀ p ∈ a.chunks, p.2.isFull) ∧
    (∀ r, a.allocateSlotChecked pf = some r → r = a.allocateSlot) ∧
    (AllocWF a → ∀ r, a.allocateSlotChecked pf = some r → LiveIn r.2 r.1) := by
  obtain ⟨h1, h2⟩ := checked_vs_plain a pf
  refine ⟨h1, h2, ?_⟩
  intro w r h
  obtain ⟨_, _, hl, _, _⟩ := allocateSlot_spec w
  rw [h2 r h]
  exact hl

/-- Witness for claim C8: on the empty allocator, a successful platform
allocation yields the live slot 0 of the fresh chunk; with the platform
failing, the operation aborts and every (vacuously no) chunk is full. -/
theorem c8_allocate_fatal_or_valid_witness :
    (Allocator.init.allocateSlotChecked false = none ∧ (false = false ∧
      ∀ p ∈ Allocator.init.chunks, p.2.isFull)) ∧
    Allocator.init.allocateSlotChecked true = some Allocator.init.allocateSlot ∧
    LiveIn (Allocator.init.allocateSlot).2 (Allocator.init.allocateSlot).1 := by
  have hf := (c8_allocate_fatal_or_valid Allocator.init false).1 (by decide)
  have hs := (c8_allocate_fatal_or_valid Allocator.init true).2.2 initAllocWF
    Allocator.init.allocateSlot (by decide)
  exact ⟨⟨by decide, hf⟩, by decide, hs⟩

/-! ## Claim C5 -/

theorem visitUpTo_rec (n : Nat) : ∀ st sl : List Cell,
    visitUpTo recVisitor n st sl
      = (st ++ (List.range n).map (fun i => sl.getD i Cell.uninit), sl) := by
  induction n with
  | zero =>
      intro st sl
      simp [visitUpTo]
  | succ n ih =>
      intro st sl
      show (let p := visitUpTo recVisitor n st sl
            let q := recVisitor p.1 (p.2.getD n Cell.uninit)
            (q.1, p.2.set n q.2))
        = (st ++ (List.range (n + 1)).map (fun i => sl.getD i Cell.uninit), sl)
      rw [ih]
      show (st ++ (List.range n).map (fun i => sl.getD i Cell.uninit)
          ++ [sl.getD n Cell.uninit], sl.set n (sl.getD n Cell.uninit))
        = (st ++ (List.range (n + 1)).map (fun i => sl.getD i Cell.uninit), sl)
      rw [set_getD_self, List.range_succ, List.map_append, List.append_assoc]
      rfl

theorem markChunk_rec (st : List Cell) (c : Chunk) :
    c.markChunk recVisitor st = (st ++ c.liveCells, c) := by
  unfold Chunk.markChunk Chunk.liveCells
  rw [visitUpTo_rec]

theorem markList_rec : ∀ (l : List (Nat × Chunk)) (st : List Cell),
    markList recVisitor st l
      = (st ++ (l.map fun q => q.2.liveCells).flatten, l) := by
  intro l
  induction l with
  | nil =>
      intro st
      simp [markList]
  | cons hd t ih =>
      intro st
      obtain ⟨id, c⟩ := hd
      show (let p := c.markChunk recVisitor st
            let q := markList recVisitor p.1 t
            (q.1, (id, p.2) :: q.2))
        = (st ++ (((id, c) :: t).map fun q => q.2.liveCells).flatten, (id, c) :: t)
      rw [markChunk_rec]
      show (let q := markList recVisitor (st ++ c.liveCells) t
            (q.1, (id, c) :: q.2))
        = (st ++ (((id, c) :: t).map fun q => q.2.liveCells).flatten, (id, c) :: t)
      rw [ih]
      show (st ++ c.liveCells ++ (t.map fun q => q.2.liveCells).flatten, (id, c) :: t)
        = (st ++ (((id, c) :: t).map fun q => q.2.liveCells).flatten, (id, c) :: t)
      rw [List.map_cons, List.flatten_cons, List.append_assoc]

theorem markRoots_rec (a : Allocator) :
    a.markRoots recVisitor [] = (a.rootsTrace, a) := by
  unfold Allocator.markRoots Allocator.rootsTrace
  rw [markList_rec]
  rfl

theorem visitUpTo_len {σ : Type} (v : σ → Cell → σ × Cell) (n : Nat) :
    ∀ (st : σ) (sl : List Cell),
      (visitUpTo v n st sl).2.length = sl.length := by
  induction n with
  | zero =>
      intro st sl
      rfl
  | succ n ih =>
      intro st sl
      show ((visitUpTo v n st sl).2.set n
          (v (visitUpTo v n st sl).1
            ((visitUpTo v n st sl).2.getD n Cell.uninit)).2).length = sl.length
      rw [List.length_set]
      exact ih st sl

theorem markList_shape {σ : Type} (v : σ → Cell → σ × Cell) :
    ∀ (l : List (Nat × Chunk)) (st : σ),
      (markList v st l).2.map
          (fun q => (q.1, q.2.freeList, q.2.allocatedEnd, q.2.slots.length))
        = l.map (fun q => (q.1, q.2.freeList, q.2.allocatedEnd, q.2.slots.length)) := by
  intro l
  induction l with
  | nil =>
      intro st
      rfl
  | cons hd t ih =>
      intro st
      obtain ⟨id, c⟩ := hd
      show ((id, (c.markChunk v st).2) :: (markList v (c.markChunk v st).1 t).2).map
          (fun q => (q.1, q.2.freeList, q.2.allocatedEnd, q.2.slots.length))
        = ((id, c) :: t).map
          (fun q => (q.1, q.2.freeList, q.2.allocatedEnd, q.2.slots.length))
      rw [List.map_cons, List.map_cons, ih]
      have hch : ((c.markChunk v st).2.freeList, (c.markChunk v st).2.allocatedEnd,
          (c.markChunk v st).2.slots.length)
          = (c.freeList, c.allocatedEnd, c.slots.length) := by
        unfold Chunk.markChunk
        dsimp only
        rw [visitUpTo_len]
      rw [Prod.mk.injEq] at hch
      obtain ⟨e1, hch⟩ := hch
      rw [Prod.mk.injEq] at hch
      obtain ⟨e2, e3⟩ := hch
      dsimp only
      rw [e1, e2, e3]

/-- Claim C5: `markRoots` offers to the visitor exactly the cells of slots
`[0, allocatedEnd)` of each chunk, chunks in list order and indices
increasing, and mutates no allocator or chunk bookkeeping (chunk identities
and order, `freeList`, `allocatedEnd` and the slot-array length are preserved
for any visitor; with a recording visitor the allocator is returned entirely
unchanged and the trace is exactly the live cells in order). Consequently two
consecutive calls with a recording visitor yield the same sequence, hence the
same multiset, of cells. -/
theorem c5_markRoots_trace :
    (∀ (σ : Type) (v : σ → Cell → σ × Cell) (st : σ) (a : Allocator),
      (a.markRoots v st).2.chunks.map
          (fun q => (q.1, q.2.freeList, q.2.allocatedEnd, q.2.slots.length))
        = a.chunks.map
          (fun q => (q.1, q.2.freeList, q.2.allocatedEnd, q.2.slots.length)) ∧
      (a.markRoots v st).2.nextId = a.nextId) ∧
    (∀ a : Allocator, a.markRoots recVisitor [] = (a.rootsTrace, a)) ∧
    (∀ a : Allocator,
      ((a.markRoots recVisitor []).2.markRoots recVisitor []).1
        = (a.markRoots recVisitor []).1) := by
  refine ⟨?_, markRoots_rec, ?_⟩
  · intro σ v st a
    constructor
    · show (markList v st a.chunks).2.map
          (fun q => (q.1, q.2.freeList, q.2.allocatedEnd, q.2.slots.length))
        = a.chunks.map
          (fun q => (q.1, q.2.freeList, q.2.allocatedEnd, q.2.slots.length))
      exact markList_shape v a.chunks st
    · rfl
  · intro a
    rw [markRoots_rec]
    rw [markRoots_rec a]

/-- Witness for claim C5: the recording run on a concrete two-chunk
allocator returns the allocator unchanged with the trace of live cells in
order. -/
theorem c5_markRoots_trace_witness :
    Allocator.markRoots recVisitor []
        ⟨[(0, chunkBumpExample), (1, chunkPopExample)], 2⟩
      = (Allocator.rootsTrace ⟨[(0, chunkBumpExample), (1, chunkPopExample)], 2⟩,
        ⟨[(0, chunkBumpExample), (1, chunkPopExample)], 2⟩) :=
  c5_markRoots_trace.2.1 ⟨[(0, chunkBumpExample), (1, chunkPopExample)], 2⟩

end DynHandleModel
